import Mathlib

/-!
Verification development for the Carriage-Stabilization repository.

Shallow embedding of the control pipeline:
  * `src/flc/rule_engine.py`  — Sugeno rule evaluation (`RuleEngine.evaluate`)
  * `src/flc/defuzzifier.py`  — weighted-average defuzzification (`Defuzzifier.defuzzify`)
  * `src/flc/controller.py`   — FLC wiring (`FLCController.__init__`)
  * `src/hardware/pwm_driver.py` — dual-channel PWM mapping (`DualPWMController.set_speed`)
  * `src/hardware/imu_driver.py` — IMU signal conditioning (`IMU_Driver`)

Python floats are modelled as exact rationals (`ℚ`) in the purely algebraic
components and as real numbers (`ℝ`) in the IMU conditioner, whose code uses
the transcendental functions `tanh`, `atan2` and `sqrt`.  Python `int(x)`
(truncation toward zero) is modelled explicitly.  Python code that can raise
`ZeroDivisionError` is modelled with `Option`, or guarded by an explicit
non-degeneracy hypothesis where noted.
-/

namespace CarriageStab

/-- A rule of the `[[rule_base]]` array: antecedent `rule = [theta_set, omega_set]`
and consequent `output = { theta_coeff, omega_coeff, bias }`. -/
structure Rule where
  theta_set : String
  omega_set : String
  theta_coeff : ℚ
  omega_coeff : ℚ
  bias : ℚ
deriving DecidableEq

/-- A Python dict mapping fuzzy-set names to membership degrees
(`fuzzified_theta` / `fuzzified_omega` in `rule_engine.py`). -/
abbrev FuzzMap := List (String × ℚ)

/-- Embedding of Python `d.get(key, 0.0)` on a `FuzzMap`
(`rule_engine.py` lines 126-127). -/
def dictGet (m : FuzzMap) (k : String) : ℚ :=
  match m with
  | [] => 0
  | (k2, v) :: rest => if k2 = k then v else dictGet rest k

/-- Embedding of the Python idiom `(x > 0) - (x < 0)` used to take the sign of
the crisp inputs (`rule_engine.py` lines 138 and 144). -/
def pySign (x : ℚ) : ℚ :=
  (if 0 < x then 1 else 0) - (if x < 0 then 1 else 0)

/-- Scaling dictionary passed to `RuleEngine.__init__`; both keys are optional
(`scaling.get("THETA_SCALE_FACTOR", 1.0)`). -/
structure RuleScaling where
  THETA_SCALE_FACTOR : Option ℚ
  OMEGA_SCALE_FACTOR : Option ℚ

/-- State built by `RuleEngine.__init__` (`rule_engine.py` lines 25-37). -/
structure RuleEngine where
  rules : List Rule
  theta_scale_factor : ℚ
  omega_scale_factor : ℚ
deriving DecidableEq

/-- Embedding of `RuleEngine.__init__` (`rule_engine.py` lines 25-45): stores
the rule base unchanged and reads the two scale factors with default `1.0`.
The argument `rule_scaling` may be `None` (`rule_scaling or {}`).  The body
performs no validation of the rule base and cannot fail. -/
def mkRuleEngine (rule_base : List Rule) (rule_scaling : Option RuleScaling) : RuleEngine :=
  let scaling := rule_scaling.getD ⟨none, none⟩
  { rules := rule_base
    theta_scale_factor := scaling.THETA_SCALE_FACTOR.getD 1
    omega_scale_factor := scaling.OMEGA_SCALE_FACTOR.getD 1 }

/-- Embedding of the loop body of `RuleEngine.evaluate`
(`rule_engine.py` lines 117-173): for each rule in declaration order, the
membership degrees default to `0` when the set name is absent, the firing
strength is the fuzzy OR (`max`), and an entry `(W, Z)` is appended only when
the firing strength is strictly positive, with
`Z = theta_coeff·tsf·μ_θ·sign(θ) + omega_coeff·osf·μ_ω·sign(ω) + bias`. -/
def evaluateRules (tsf osf : ℚ) (fθ fω : FuzzMap) (θ ω : ℚ) : List Rule → List (ℚ × ℚ)
  | [] => []
  | rule :: rest =>
    let degree_theta := dictGet fθ rule.theta_set
    let degree_omega := dictGet fω rule.omega_set
    let firing_strength := max degree_theta degree_omega
    if 0 < firing_strength then
      let z1 := rule.theta_coeff * tsf * degree_theta * pySign θ
      let z2 := rule.omega_coeff * osf * degree_omega * pySign ω
      let z3 := rule.bias
      (firing_strength, z1 + z2 + z3) :: evaluateRules tsf osf fθ fω θ ω rest
    else
      evaluateRules tsf osf fθ fω θ ω rest

/-- Embedding of `RuleEngine.evaluate` (`rule_engine.py` lines 47-173). -/
def RuleEngine.evaluate (e : RuleEngine) (fθ fω : FuzzMap) (θ ω : ℚ) : List (ℚ × ℚ) :=
  evaluateRules e.theta_scale_factor e.omega_scale_factor fθ fω θ ω e.rules

/-- Declarative form of a rule's firing strength: fuzzy OR of the degrees of
the two antecedent sets, each defaulting to `0` when absent. -/
def ruleW (fθ fω : FuzzMap) (r : Rule) : ℚ :=
  max (dictGet fθ r.theta_set) (dictGet fω r.omega_set)

/-- Boolean test of whether a rule contributes: strictly positive firing strength. -/
def fires (fθ fω : FuzzMap) (r : Rule) : Bool :=
  0 < ruleW fθ fω r

/-- Declarative form of the crisp consequent actually computed by
`RuleEngine.evaluate` (`rule_engine.py` lines 134-147): membership-weighted
coefficients times the SIGN of the crisp inputs, plus bias. -/
def ruleZ (tsf osf : ℚ) (fθ fω : FuzzMap) (θ ω : ℚ) (r : Rule) : ℚ :=
  r.theta_coeff * tsf * dictGet fθ r.theta_set * pySign θ
    + r.omega_coeff * osf * dictGet fω r.omega_set * pySign ω
    + r.bias

/-- Modelled from the spec: the consequent formula the specification states,
`Z = a_θ · THETA_SCALE · θ_n + a_ω · OMEGA_SCALE · ω_n + bias`, a linear
Sugeno function of the crisp normalized inputs.  Defined only to be compared
with `ruleZ`, the formula the source actually computes. -/
def specLinearZ (tsf osf : ℚ) (θ ω : ℚ) (r : Rule) : ℚ :=
  r.theta_coeff * tsf * θ + r.omega_coeff * osf * ω + r.bias

/-- Sum of the firing strengths of a rule-output list. -/
def sumW (outs : List (ℚ × ℚ)) : ℚ := (outs.map (fun p => p.1)).sum

/-- Sum of the weighted consequents of a rule-output list. -/
def sumWZ (outs : List (ℚ × ℚ)) : ℚ := (outs.map (fun p => p.1 * p.2)).sum

/-- Embedding of `Defuzzifier.defuzzify` (`defuzzifier.py` lines 21-71).
The accumulators start at `numerator = 0.0` and `denominator = 0.0001`
(the epsilon guard), every pair contributes `w*z` and `w`, and the quotient is
clamped to `[-1, 1]` as the last step.  The empty list returns `0.0` before
any division.  `none` models the `ZeroDivisionError` Python raises when the
denominator is exactly zero (the `if denominator == 0` check in the source is
dead code: it sits after the division). -/
def defuzzify (rule_outputs : List (ℚ × ℚ)) : Option ℚ :=
  if rule_outputs = [] then some 0
  else if 1 / 10000 + sumW rule_outputs = 0 then none
  else some (max (-1) (min 1 (sumWZ rule_outputs / (1 / 10000 + sumW rule_outputs))))

/-- Composition of rule evaluation and defuzzification, as wired by
`FLCController.calculate_motor_cmd` (`controller.py` lines 49-79) for
already-fuzzified inputs. -/
def flcOutput (e : RuleEngine) (fθ fω : FuzzMap) (θ ω : ℚ) : Option ℚ :=
  defuzzify (e.evaluate fθ fω θ ω)

/-- Boolean check that every firing strength in a rule-output list is
non-negative (true of everything `RuleEngine.evaluate` emits). -/
def allNonnegW (outs : List (ℚ × ℚ)) : Bool :=
  outs.all (fun p => 0 ≤ p.1)

/-- Boolean check that every membership degree of a fuzzified map is
non-negative (true of everything `Fuzzifier.fuzzify` emits). -/
def allNonnegDeg (m : FuzzMap) : Bool :=
  m.all (fun p => 0 ≤ p.2)

/-- Boolean check of the spec's negative-feedback constraint on a rule base,
strengthened with zero bias: `theta_coeff ≤ 0`, `omega_coeff ≤ 0`, `bias = 0`. -/
def negFeedbackRules (rules : List Rule) : Bool :=
  rules.all (fun r => r.theta_coeff ≤ 0 && r.omega_coeff ≤ 0 && r.bias == 0)

/-- The defuzzified command exists (no `ZeroDivisionError`) and is non-positive. -/
def cmdNonpos (o : Option ℚ) : Prop :=
  match o with
  | none => False
  | some u => u ≤ 0

/-- The defuzzified command exists (no `ZeroDivisionError`) and is non-negative. -/
def cmdNonneg (o : Option ℚ) : Prop :=
  match o with
  | none => False
  | some u => 0 ≤ u

/-- The defuzzified command exists and lies in the normalized range `[-1, 1]`. -/
def cmdBounded (o : Option ℚ) : Prop :=
  match o with
  | none => False
  | some u => -1 ≤ u ∧ u ≤ 1

/-! ### Helper lemmas about the rule engine -/

theorem evaluateRules_eq_filter_map (tsf osf : ℚ) (fθ fω : FuzzMap) (θ ω : ℚ)
    (rules : List Rule) :
    evaluateRules tsf osf fθ fω θ ω rules =
      (rules.filter (fires fθ fω)).map
        (fun r => (ruleW fθ fω r, ruleZ tsf osf fθ fω θ ω r)) := by
  induction rules with
  | nil => rfl
  | cons r rest ih =>
    by_cases h : 0 < ruleW fθ fω r
    · have hb : fires fθ fω r = true := by simp [fires, h]
      have h' : 0 < max (dictGet fθ r.theta_set) (dictGet fω r.omega_set) := h
      simp only [evaluateRules, List.filter_cons, hb, if_true, List.map_cons, if_pos h', ih]
      rfl
    · have hb : fires fθ fω r = false := by simp [fires, h]
      have h' : ¬ 0 < max (dictGet fθ r.theta_set) (dictGet fω r.omega_set) := h
      simp only [evaluateRules, List.filter_cons, hb, Bool.false_eq_true, if_false,
        if_neg h', ih]

theorem mem_evaluateRules {tsf osf : ℚ} {fθ fω : FuzzMap} {θ ω : ℚ}
    {rules : List Rule} {r : Rule} (hr : r ∈ rules) (hw : 0 < ruleW fθ fω r) :
    (ruleW fθ fω r, ruleZ tsf osf fθ fω θ ω r) ∈ evaluateRules tsf osf fθ fω θ ω rules := by
  rw [evaluateRules_eq_filter_map]
  exact List.mem_map_of_mem _ (List.mem_filter.2 ⟨hr, by simpa [fires] using hw⟩)

theorem of_mem_evaluateRules {tsf osf : ℚ} {fθ fω : FuzzMap} {θ ω : ℚ}
    {rules : List Rule} {p : ℚ × ℚ}
    (hp : p ∈ evaluateRules tsf osf fθ fω θ ω rules) :
    ∃ r ∈ rules, 0 < ruleW fθ fω r ∧ p = (ruleW fθ fω r, ruleZ tsf osf fθ fω θ ω r) := by
  rw [evaluateRules_eq_filter_map] at hp
  obtain ⟨r, hr, rfl⟩ := List.mem_map.1 hp
  have h := List.mem_filter.1 hr
  exact ⟨r, h.1, by simpa [fires] using h.2, rfl⟩

theorem dictGet_nonneg {m : FuzzMap} (h : allNonnegDeg m = true) (k : String) :
    0 ≤ dictGet m k := by
  induction m with
  | nil => simp [dictGet]
  | cons p rest ih =>
    simp only [allNonnegDeg, List.all_cons, Bool.and_eq_true, decide_eq_true_eq] at h
    have ih' := ih (by simpa [allNonnegDeg] using h.2)
    obtain ⟨k2, v⟩ := p
    by_cases hk : k2 = k
    · simpa [dictGet, hk] using h.1
    · simpa [dictGet, hk] using ih'

/-! ### Helper lemmas about the defuzzifier -/

theorem defuzzify_of_den_ne {outs : List (ℚ × ℚ)} (hne : outs ≠ [])
    (hden : 1 / 10000 + sumW outs ≠ 0) :
    defuzzify outs = some (max (-1) (min 1 (sumWZ outs / (1 / 10000 + sumW outs)))) := by
  unfold defuzzify
  rw [if_neg hne, if_neg hden]

theorem sumW_nonneg {outs : List (ℚ × ℚ)} (h : ∀ p ∈ outs, 0 ≤ p.1) :
    0 ≤ sumW outs := by
  refine List.sum_nonneg ?_
  intro x hx
  obtain ⟨p, hp, rfl⟩ := List.mem_map.1 hx
  exact h p hp

theorem sumWZ_nonpos {outs : List (ℚ × ℚ)} (h : ∀ p ∈ outs, 0 ≤ p.1 ∧ p.2 ≤ 0) :
    sumWZ outs ≤ 0 := by
  induction outs with
  | nil => simp [sumWZ]
  | cons p rest ih =>
    have hp := h p (List.mem_cons_self p rest)
    have hterm : p.1 * p.2 ≤ 0 := mul_nonpos_iff.2 (Or.inl ⟨hp.1, hp.2⟩)
    have ih' := ih (fun q hq => h q (List.mem_cons_of_mem p hq))
    simp only [sumWZ, List.map_cons, List.sum_cons] at *
    linarith

theorem sumWZ_nonneg {outs : List (ℚ × ℚ)} (h : ∀ p ∈ outs, 0 ≤ p.1 ∧ 0 ≤ p.2) :
    0 ≤ sumWZ outs := by
  induction outs with
  | nil => simp [sumWZ]
  | cons p rest ih =>
    have hp := h p (List.mem_cons_self p rest)
    have hterm : 0 ≤ p.1 * p.2 := mul_nonneg hp.1 hp.2
    have ih' := ih (fun q hq => h q (List.mem_cons_of_mem p hq))
    simp only [sumWZ, List.map_cons, List.sum_cons] at *
    linarith

theorem clamp_mem (x : ℚ) : -1 ≤ max (-1) (min 1 x) ∧ max (-1) (min 1 x) ≤ 1 :=
  ⟨le_max_left _ _, max_le (by norm_num) (min_le_left _ _)⟩

theorem clamp_nonpos {x : ℚ} (hx : x ≤ 0) : max (-1) (min 1 x) ≤ 0 :=
  max_le (by norm_num) (le_trans (min_le_right _ _) hx)

theorem clamp_nonneg {x : ℚ} (hx : 0 ≤ x) : 0 ≤ max (-1) (min 1 x) :=
  le_trans (le_min (by norm_num) hx) (le_max_right _ _)

theorem defuzzify_cmdNonpos {outs : List (ℚ × ℚ)}
    (h : ∀ p ∈ outs, 0 ≤ p.1 ∧ p.2 ≤ 0) : cmdNonpos (defuzzify outs) := by
  by_cases hne : outs = []
  · simp [hne, defuzzify, cmdNonpos]
  · have hw : 0 ≤ sumW outs := sumW_nonneg (fun p hp => (h p hp).1)
    have hden : (0 : ℚ) < 1 / 10000 + sumW outs := by linarith
    rw [defuzzify_of_den_ne hne hden.ne']
    have hq : sumWZ outs / (1 / 10000 + sumW outs) ≤ 0 :=
      div_nonpos_iff.2 (Or.inr ⟨sumWZ_nonpos h, hden.le⟩)
    simpa [cmdNonpos] using clamp_nonpos hq

theorem defuzzify_cmdNonneg {outs : List (ℚ × ℚ)}
    (h : ∀ p ∈ outs, 0 ≤ p.1 ∧ 0 ≤ p.2) : cmdNonneg (defuzzify outs) := by
  by_cases hne : outs = []
  · simp [hne, defuzzify, cmdNonneg]
  · have hw : 0 ≤ sumW outs := sumW_nonneg (fun p hp => (h p hp).1)
    have hden : (0 : ℚ) < 1 / 10000 + sumW outs := by linarith
    rw [defuzzify_of_den_ne hne hden.ne']
    have hq : 0 ≤ sumWZ outs / (1 / 10000 + sumW outs) :=
      div_nonneg (sumWZ_nonneg h) hden.le
    simpa [cmdNonneg] using clamp_nonneg hq

/-! ### Bridges from Boolean checks to propositional facts -/

theorem allNonnegW_spec {outs : List (ℚ × ℚ)} (h : allNonnegW outs = true) :
    ∀ p ∈ outs, 0 ≤ p.1 := by
  intro p hp
  simp only [allNonnegW, List.all_eq_true, decide_eq_true_eq] at h
  exact h p hp

theorem negFeedback_spec {rules : List Rule} (h : negFeedbackRules rules = true) :
    ∀ r ∈ rules, r.theta_coeff ≤ 0 ∧ r.omega_coeff ≤ 0 ∧ r.bias = 0 := by
  intro r hr
  simp only [negFeedbackRules, List.all_eq_true, Bool.and_eq_true, decide_eq_true_eq,
    beq_iff_eq] at h
  have hh := h r hr
  exact ⟨hh.1.1, hh.1.2, hh.2⟩

theorem pySign_pos {x : ℚ} (h : 0 < x) : pySign x = 1 := by
  simp [pySign, h, asymm h]

theorem pySign_neg {x : ℚ} (h : x < 0) : pySign x = -1 := by
  simp [pySign, h, asymm h]

theorem pySign_zero : pySign (0 : ℚ) = 0 := by
  simp [pySign]

/-! ### Sign behaviour of the rule outputs under the negative-feedback constraint -/

theorem evalOut_theta_pos {e : RuleEngine} {fθ fω : FuzzMap} {θ : ℚ}
    (hr : negFeedbackRules e.rules = true)
    (hts : 0 ≤ e.theta_scale_factor) (hos : 0 ≤ e.omega_scale_factor)
    (hfθ : allNonnegDeg fθ = true) (hfω : allNonnegDeg fω = true) (hθ : 0 < θ) :
    ∀ p ∈ e.evaluate fθ fω θ 0, 0 ≤ p.1 ∧ p.2 ≤ 0 := by
  intro p hp
  obtain ⟨r, hrm, hw, rfl⟩ := of_mem_evaluateRules hp
  have hc := negFeedback_spec hr r hrm
  refine ⟨le_trans (dictGet_nonneg hfθ _) (le_max_left _ _), ?_⟩
  have hz : ruleZ e.theta_scale_factor e.omega_scale_factor fθ fω θ 0 r =
      r.theta_coeff * e.theta_scale_factor * dictGet fθ r.theta_set := by
    rw [ruleZ, pySign_pos hθ, pySign_zero, hc.2.2]; ring
  rw [hz]
  have h1 : r.theta_coeff * e.theta_scale_factor ≤ 0 :=
    mul_nonpos_iff.2 (Or.inr ⟨hc.1, hts⟩)
  exact mul_nonpos_iff.2 (Or.inr ⟨h1, dictGet_nonneg hfθ _⟩)

theorem evalOut_theta_neg {e : RuleEngine} {fθ fω : FuzzMap} {θ : ℚ}
    (hr : negFeedbackRules e.rules = true)
    (hts : 0 ≤ e.theta_scale_factor) (hos : 0 ≤ e.omega_scale_factor)
    (hfθ : allNonnegDeg fθ = true) (hfω : allNonnegDeg fω = true) (hθ : θ < 0) :
    ∀ p ∈ e.evaluate fθ fω θ 0, 0 ≤ p.1 ∧ 0 ≤ p.2 := by
  intro p hp
  obtain ⟨r, hrm, hw, rfl⟩ := of_mem_evaluateRules hp
  have hc := negFeedback_spec hr r hrm
  refine ⟨le_trans (dictGet_nonneg hfθ _) (le_max_left _ _), ?_⟩
  have hz : ruleZ e.theta_scale_factor e.omega_scale_factor fθ fω θ 0 r =
      -(r.theta_coeff * e.theta_scale_factor * dictGet fθ r.theta_set) := by
    rw [ruleZ, pySign_neg hθ, pySign_zero, hc.2.2]; ring
  dsimp only
  rw [hz]
  have h1 : r.theta_coeff * e.theta_scale_factor ≤ 0 :=
    mul_nonpos_iff.2 (Or.inr ⟨hc.1, hts⟩)
  have h2 : r.theta_coeff * e.theta_scale_factor * dictGet fθ r.theta_set ≤ 0 :=
    mul_nonpos_iff.2 (Or.inr ⟨h1, dictGet_nonneg hfθ _⟩)
  linarith

theorem evalOut_omega_pos {e : RuleEngine} {fθ fω : FuzzMap} {ω : ℚ}
    (hr : negFeedbackRules e.rules = true)
    (hts : 0 ≤ e.theta_scale_factor) (hos : 0 ≤ e.omega_scale_factor)
    (hfθ : allNonnegDeg fθ = true) (hfω : allNonnegDeg fω = true) (hω : 0 < ω) :
    ∀ p ∈ e.evaluate fθ fω 0 ω, 0 ≤ p.1 ∧ p.2 ≤ 0 := by
  intro p hp
  obtain ⟨r, hrm, hw, rfl⟩ := of_mem_evaluateRules hp
  have hc := negFeedback_spec hr r hrm
  refine ⟨le_trans (dictGet_nonneg hfθ _) (le_max_left _ _), ?_⟩
  have hz : ruleZ e.theta_scale_factor e.omega_scale_factor fθ fω 0 ω r =
      r.omega_coeff * e.omega_scale_factor * dictGet fω r.omega_set := by
    rw [ruleZ, pySign_pos hω, pySign_zero, hc.2.2]; ring
  rw [hz]
  have h1 : r.omega_coeff * e.omega_scale_factor ≤ 0 :=
    mul_nonpos_iff.2 (Or.inr ⟨hc.2.1, hos⟩)
  exact mul_nonpos_iff.2 (Or.inr ⟨h1, dictGet_nonneg hfω _⟩)

/-! ### Actuation mapper: `DualPWMController.set_speed` -/

/-- Embedding of Python `int(x)` on a rational: truncation toward zero. -/
def pyTruncQ (q : ℚ) : ℤ :=
  if q < 0 then Int.ceil q else Int.floor q

/-- Embedding of `DualPWMController.set_speed` (`pwm_driver.py` lines 75-117).
Returns `(duty_cycle_0, duty_cycle_1)`, the duty cycles (in parts-per-million)
written to GPIO 18 (`PWM_0`, logged as CW) and GPIO 19 (`PWM_1`, logged as
CCW).  The magnitude is clamped to `1.0` and scaled by `1_000_000`; the code
contains no `MIN_PWM` offset and no dead-zone threshold. -/
def set_speed (value : ℚ) : ℤ × ℤ :=
  if value < 0 then (0, pyTruncQ (min (-value) 1 * 1000000))
  else if 0 < value then (pyTruncQ (min value 1 * 1000000), 0)
  else (0, 0)

/-! ### Controller wiring: `FLCController.__init__` -/

/-- Number of required positional parameters (besides `self`) of
`RuleEngine.__init__` (`rule_engine.py` line 25: `rule_base` and
`rule_scaling`, neither with a default value). -/
def ruleEngineInitRequiredArgs : Nat := 2

/-- Number of positional arguments `FLCController.__init__` passes to
`RuleEngine` (`controller.py` line 45: `RuleEngine(rule_base)`). -/
def controllerRuleEngineCallArgs : Nat := 1

/-- Python call binding for a signature consisting solely of required
positional parameters: the call binds iff the argument count matches;
otherwise Python raises `TypeError`. -/
def pyCallBinds (required provided : Nat) : Bool :=
  provided == required

/-- Python exception kinds relevant to the embedded wiring. -/
inductive PyError where
  | typeError
deriving DecidableEq

/-- Result of a successful `FLCController.__init__`: the stored components. -/
structure FLCController where
  mf_params : List (String × List (String × List ℚ))
  rule_engine : RuleEngine

/-- Embedding of `FLCController.__init__` (`controller.py` lines 33-47).
It extracts `membership_functions` and `rule_base` from the config dict,
constructs the `Fuzzifier` (whose `__init__` only stores its argument and
cannot fail on a well-formed config dict), and then calls `RuleEngine` with a
single positional argument although `RuleEngine.__init__` requires two;
the call raises `TypeError` before the `Defuzzifier` is ever constructed. -/
def FLCController_init (mf_params : List (String × List (String × List ℚ)))
    (rule_base : List Rule) : Except PyError FLCController :=
  if pyCallBinds ruleEngineInitRequiredArgs controllerRuleEngineCallArgs then
    Except.ok { mf_params := mf_params, rule_engine := mkRuleEngine rule_base none }
  else
    Except.error PyError.typeError

/-! ### Claim theorems -/

/-- C1 (counterexample): the claim says every fired rule's crisp consequent is
the linear Sugeno function `Z = a_θ·s_θ·θ_n + a_ω·s_ω·ω_n + bias` of the crisp
inputs.  With the single rule `(theta_coeff, omega_coeff, bias) = (-1, -1, 0)`,
unit scale factors, membership degree `μ_θ = 1`, and crisp inputs
`θ_n = 1/2`, `ω_n = 0`, the engine emits `Z = -1`, while the claimed formula
gives `-1/2`. -/
theorem C1_sugeno_counterexample :
    (mkRuleEngine [⟨"P", "Z", -1, -1, 0⟩] none).evaluate [("P", 1)] [] (1 / 2) 0 =
      [(1, -1)] ∧
    specLinearZ 1 1 (1 / 2) 0 ⟨"P", "Z", -1, -1, 0⟩ = -(1 / 2) ∧
    ((-1 : ℚ) ≠ -(1 / 2)) := by
  refine ⟨?_, by norm_num [specLinearZ], by norm_num⟩
  norm_num [RuleEngine.evaluate, evaluateRules, mkRuleEngine, dictGet, pySign]

/-- C1 (amended): for every rule with a positive firing strength, `evaluate`
emits `(W, Z)` for that rule with
`Z = theta_coeff·THETA_SCALE_FACTOR·μ_θ·sign(θ_n) +
omega_coeff·OMEGA_SCALE_FACTOR·μ_ω·sign(ω_n) + bias`
(the membership-weighted sign-based consequent), for all crisp inputs and all
membership degrees. -/
theorem C1_sugeno_sign_consequent (e : RuleEngine) (fθ fω : FuzzMap) (θ ω : ℚ)
    (r : Rule) (hr : r ∈ e.rules) (hw : 0 < ruleW fθ fω r) :
    (ruleW fθ fω r, ruleZ e.theta_scale_factor e.omega_scale_factor fθ fω θ ω r)
      ∈ e.evaluate fθ fω θ ω :=
  mem_evaluateRules hr hw

/-- Witness for C1: the amended theorem applied at a concrete engine and input. -/
theorem C1_sugeno_sign_consequent_witness :
    (⟨"P", "Z", -1, -1, 0⟩ : Rule) ∈ (mkRuleEngine [⟨"P", "Z", -1, -1, 0⟩] none).rules ∧
    0 < ruleW [("P", 1)] [] ⟨"P", "Z", -1, -1, 0⟩ ∧
    (ruleW [("P", 1)] [] ⟨"P", "Z", -1, -1, 0⟩,
        ruleZ (mkRuleEngine [⟨"P", "Z", -1, -1, 0⟩] none).theta_scale_factor
          (mkRuleEngine [⟨"P", "Z", -1, -1, 0⟩] none).omega_scale_factor
          [("P", 1)] [] (1 / 2) 0 ⟨"P", "Z", -1, -1, 0⟩)
      ∈ (mkRuleEngine [⟨"P", "Z", -1, -1, 0⟩] none).evaluate [("P", 1)] [] (1 / 2) 0 :=
  ⟨by simp [mkRuleEngine], by norm_num [ruleW, dictGet],
    C1_sugeno_sign_consequent _ _ _ _ _ _ (by simp [mkRuleEngine])
      (by norm_num [ruleW, dictGet])⟩

/-- C2: the shipped `set_speed` computes `duty = int(min(|u|,1)·1_000_000)`
with no `MIN_PWM` offset: `set_speed(0.5)` yields `(500000, 0)` and
`set_speed(-0.5)` yields `(0, 500000)` — not the `528500` that the claim (and
the repository's own unit tests) derive from
`MIN_PWM + 0.5·(MAX_PWM − MIN_PWM) = 57000 + 0.5·943000`. -/
theorem C2_pwm_no_deadzone :
    set_speed (1 / 2) = (500000, 0) ∧ set_speed (-(1 / 2)) = (0, 500000) ∧
    ((500000 : ℤ) ≠ 528500) := by
  refine ⟨?_, ?_, by norm_num⟩ <;>
    norm_num [set_speed, pyTruncQ, min_def]

/-- C3: for every configuration, `FLCController.__init__` raises `TypeError`:
it calls `RuleEngine` with one positional argument while `RuleEngine.__init__`
requires two, so the fuzzy pipeline as wired can never be instantiated. -/
theorem C3_controller_init_type_error
    (mf_params : List (String × List (String × List ℚ))) (rule_base : List Rule) :
    FLCController_init mf_params rule_base = Except.error PyError.typeError := rfl

/-- C4: for every list of rule outputs with non-negative firing strengths
(everything the rule engine can emit), including the empty list and lists whose
unclamped weighted average lies outside `[-1, 1]`, `defuzzify` returns a value
in `[-1, 1]`, the clamp being the last step. -/
theorem C4_defuzzify_bounded (outs : List (ℚ × ℚ)) (h : allNonnegW outs = true) :
    cmdBounded (defuzzify outs) := by
  have h' := allNonnegW_spec h
  by_cases hne : outs = []
  · subst hne
    norm_num [defuzzify, cmdBounded]
  · have hw := sumW_nonneg h'
    have hden : (0 : ℚ) < 1 / 10000 + sumW outs := by
      have : (0 : ℚ) < 1 / 10000 := by norm_num
      linarith
    rw [defuzzify_of_den_ne hne hden.ne']
    simpa [cmdBounded] using clamp_mem (sumWZ outs / (1 / 10000 + sumW outs))

/-- Witness for C4: a singleton list whose unclamped weighted average is
`5/(1 + 1/10000) > 1`; the returned command is still within bounds. -/
theorem C4_defuzzify_bounded_witness :
    allNonnegW [((1 : ℚ), (5 : ℚ))] = true ∧ cmdBounded (defuzzify [((1 : ℚ), (5 : ℚ))]) :=
  ⟨by norm_num [allNonnegW], C4_defuzzify_bounded _ (by norm_num [allNonnegW])⟩

/-- C6 (counterexample): a rule base containing a rule with
`theta_coeff = 1 > 0` is accepted by `RuleEngine.__init__` (which performs no
validation and cannot fail) and reaches evaluation, producing a non-empty
output — it is not rejected as a `ConfigError` (no such check, nor the
exception class, exists anywhere in the source). -/
theorem C6_no_validation_counterexample :
    (0 : ℚ) < (⟨"P", "Z", 1, 0, 0⟩ : Rule).theta_coeff ∧
    (mkRuleEngine [⟨"P", "Z", 1, 0, 0⟩] none).evaluate [("P", 1)] [] (1 / 2) 0 =
      [(1, 1)] ∧
    ([((1 : ℚ), (1 : ℚ))] : List (ℚ × ℚ)) ≠ [] := by
  refine ⟨by norm_num, ?_, by simp⟩
  norm_num [RuleEngine.evaluate, evaluateRules, mkRuleEngine, dictGet, pySign]

/-- C6 (amended): neither `load_config` nor `RuleEngine.__init__` validates the
negative-feedback constraint: every rule base — including one containing a rule
with `theta_coeff > 0` or `omega_coeff > 0` — is accepted unchanged at
construction, and each of its firing rules contributes to evaluation. -/
theorem C6_unvalidated_rules_reach_evaluation (rb : List Rule)
    (sc : Option RuleScaling) (r : Rule) (fθ fω : FuzzMap) (θ ω : ℚ)
    (hviol : 0 < r.theta_coeff ∨ 0 < r.omega_coeff)
    (hr : r ∈ rb) (hw : 0 < ruleW fθ fω r) :
    (ruleW fθ fω r,
        ruleZ (mkRuleEngine rb sc).theta_scale_factor
          (mkRuleEngine rb sc).omega_scale_factor fθ fω θ ω r)
      ∈ (mkRuleEngine rb sc).evaluate fθ fω θ ω :=
  mem_evaluateRules hr hw

/-- Witness for C6: the amended theorem applied to a one-rule base violating
the constraint. -/
theorem C6_unvalidated_rules_reach_evaluation_witness :
    ((0 : ℚ) < (⟨"P", "Z", 1, 0, 0⟩ : Rule).theta_coeff ∨
      (0 : ℚ) < (⟨"P", "Z", 1, 0, 0⟩ : Rule).omega_coeff) ∧
    (⟨"P", "Z", 1, 0, 0⟩ : Rule) ∈ [(⟨"P", "Z", 1, 0, 0⟩ : Rule)] ∧
    0 < ruleW [("P", 1)] [] ⟨"P", "Z", 1, 0, 0⟩ ∧
    (ruleW [("P", 1)] [] ⟨"P", "Z", 1, 0, 0⟩,
        ruleZ (mkRuleEngine [⟨"P", "Z", 1, 0, 0⟩] none).theta_scale_factor
          (mkRuleEngine [⟨"P", "Z", 1, 0, 0⟩] none).omega_scale_factor
          [("P", 1)] [] (1 / 2) 0 ⟨"P", "Z", 1, 0, 0⟩)
      ∈ (mkRuleEngine [⟨"P", "Z", 1, 0, 0⟩] none).evaluate [("P", 1)] [] (1 / 2) 0 :=
  ⟨Or.inl (by norm_num), by simp, by norm_num [ruleW, dictGet],
    C6_unvalidated_rules_reach_evaluation _ _ _ _ _ _ _ (Or.inl (by norm_num))
      (by simp) (by norm_num [ruleW, dictGet])⟩

/-- C7 (counterexample): with a rule whose coefficients are both `0 ≤ 0` (thus
"all rule coefficients non-positive") but whose bias is `+1`, crisp inputs
`θ_n = 1/2 > 0` and `ω_n = 0` produce the strictly positive command
`10000/10001`, refuting `u ≤ 0`. -/
theorem C7_negative_feedback_counterexample :
    (⟨"P", "Z", 0, 0, 1⟩ : Rule).theta_coeff ≤ 0 ∧
    (⟨"P", "Z", 0, 0, 1⟩ : Rule).omega_coeff ≤ 0 ∧
    flcOutput (mkRuleEngine [⟨"P", "Z", 0, 0, 1⟩] none) [("P", 1)] [] (1 / 2) 0 =
      some (10000 / 10001) ∧
    ¬ ((10000 / 10001 : ℚ) ≤ 0) := by
  refine ⟨by norm_num, by norm_num, ?_, by norm_num⟩
  norm_num [flcOutput, defuzzify, sumW, sumWZ, RuleEngine.evaluate, evaluateRules,
    mkRuleEngine, dictGet, pySign]

/-- C7 (amended): when every rule has non-positive coefficients AND zero bias,
the scale factors are non-negative, and all membership degrees are
non-negative, the pipeline output satisfies the negative-feedback sign
conditions: `θ_n > 0 ∧ ω_n = 0 → u ≤ 0`; `θ_n < 0 ∧ ω_n = 0 → u ≥ 0`;
`θ_n = 0 ∧ ω_n > 0 → u ≤ 0`. -/
theorem C7_negative_feedback_amended (e : RuleEngine) (fθ fω : FuzzMap) (θ ω : ℚ)
    (hr : negFeedbackRules e.rules = true)
    (hts : 0 ≤ e.theta_scale_factor) (hos : 0 ≤ e.omega_scale_factor)
    (hfθ : allNonnegDeg fθ = true) (hfω : allNonnegDeg fω = true) :
    (0 < θ ∧ ω = 0 → cmdNonpos (flcOutput e fθ fω θ ω)) ∧
    (θ < 0 ∧ ω = 0 → cmdNonneg (flcOutput e fθ fω θ ω)) ∧
    (θ = 0 ∧ 0 < ω → cmdNonpos (flcOutput e fθ fω θ ω)) := by
  refine ⟨?_, ?_, ?_⟩
  · rintro ⟨hθ, rfl⟩
    exact defuzzify_cmdNonpos (evalOut_theta_pos hr hts hos hfθ hfω hθ)
  · rintro ⟨hθ, rfl⟩
    exact defuzzify_cmdNonneg (evalOut_theta_neg hr hts hos hfθ hfω hθ)
  · rintro ⟨rfl, hω⟩
    exact defuzzify_cmdNonpos (evalOut_omega_pos hr hts hos hfθ hfω hω)

/-- Witness for C7: the amended theorem applied to a concrete engine with a
negative-feedback rule base and concrete fuzzified inputs. -/
theorem C7_negative_feedback_amended_witness :
    negFeedbackRules (mkRuleEngine [⟨"Z", "Z", -1, -1, 0⟩] none).rules = true ∧
    0 ≤ (mkRuleEngine [⟨"Z", "Z", -1, -1, 0⟩] none).theta_scale_factor ∧
    0 ≤ (mkRuleEngine [⟨"Z", "Z", -1, -1, 0⟩] none).omega_scale_factor ∧
    allNonnegDeg [("Z", 1)] = true ∧
    allNonnegDeg [("Z", 0)] = true ∧
    ((0 < (1 / 2 : ℚ) ∧ (0 : ℚ) = 0 →
        cmdNonpos (flcOutput (mkRuleEngine [⟨"Z", "Z", -1, -1, 0⟩] none)
          [("Z", 1)] [("Z", 0)] (1 / 2) 0)) ∧
      ((1 / 2 : ℚ) < 0 ∧ (0 : ℚ) = 0 →
        cmdNonneg (flcOutput (mkRuleEngine [⟨"Z", "Z", -1, -1, 0⟩] none)
          [("Z", 1)] [("Z", 0)] (1 / 2) 0)) ∧
      ((1 / 2 : ℚ) = 0 ∧ (0 : ℚ) < 0 →
        cmdNonpos (flcOutput (mkRuleEngine [⟨"Z", "Z", -1, -1, 0⟩] none)
          [("Z", 1)] [("Z", 0)] (1 / 2) 0))) :=
  ⟨by norm_num [negFeedbackRules, mkRuleEngine],
    by norm_num [mkRuleEngine], by norm_num [mkRuleEngine],
    by norm_num [allNonnegDeg], by norm_num [allNonnegDeg],
    C7_negative_feedback_amended _ _ _ _ _
      (by norm_num [negFeedbackRules, mkRuleEngine])
      (by norm_num [mkRuleEngine]) (by norm_num [mkRuleEngine])
      (by norm_num [allNonnegDeg]) (by norm_num [allNonnegDeg])⟩

/-- C8: `evaluate` equals, for every rule base and inputs, the list obtained
by keeping — in rule-declaration order — exactly the rules with strictly
positive firing strength `W = max(μ_θ, μ_ω)` (degrees defaulting to `0` for
absent set names) and mapping each to its `(W, Z)` pair. -/
theorem C8_evaluate_filter_map (e : RuleEngine) (fθ fω : FuzzMap) (θ ω : ℚ) :
    e.evaluate fθ fω θ ω =
      (e.rules.filter (fires fθ fω)).map
        (fun r => (ruleW fθ fω r,
          ruleZ e.theta_scale_factor e.omega_scale_factor fθ fω θ ω r)) :=
  evaluateRules_eq_filter_map _ _ _ _ _ _ _

/-- C9 (counterexample): for the singleton `[(W, Z)] = [(1, 1)]` the
firing-strength sum `1` exceeds the `1e-4` guard, yet `defuzzify` returns
`10000/10001 ≠ 1 = (Σ W·Z)/(Σ W)`: the epsilon guard stays in the denominator
and alters results above the guard. -/
theorem C9_epsilon_guard_counterexample :
    1 / 10000 < sumW [((1 : ℚ), (1 : ℚ))] ∧
    defuzzify [((1 : ℚ), (1 : ℚ))] = some (10000 / 10001) ∧
    (10000 / 10001 : ℚ) ≠ sumWZ [((1 : ℚ), (1 : ℚ))] / sumW [((1 : ℚ), (1 : ℚ))] := by
  norm_num [sumW, sumWZ, defuzzify]

/-- C9 (amended): for every non-empty rule-output list with positive
firing-strength sum, `defuzzify` returns exactly
`(Σ W·Z)/(1e-4 + Σ W)` — the epsilon guard included — clamped to `[-1, 1]`
as the last step. -/
theorem C9_defuzzify_epsilon_formula (outs : List (ℚ × ℚ)) (hne : outs ≠ [])
    (hpos : 0 < sumW outs) :
    defuzzify outs =
      some (max (-1) (min 1 (sumWZ outs / (1 / 10000 + sumW outs)))) :=
  defuzzify_of_den_ne hne
    (by
      have h : (0 : ℚ) < 1 / 10000 := by norm_num
      have : (0 : ℚ) < 1 / 10000 + sumW outs := by linarith
      exact this.ne')

/-- Witness for C9: the amended theorem applied to the singleton `[(1, 2)]`. -/
theorem C9_defuzzify_epsilon_formula_witness :
    ([((1 : ℚ), (2 : ℚ))] : List (ℚ × ℚ)) ≠ [] ∧
    0 < sumW [((1 : ℚ), (2 : ℚ))] ∧
    defuzzify [((1 : ℚ), (2 : ℚ))] =
      some (max (-1) (min 1 (sumWZ [((1 : ℚ), (2 : ℚ))] /
        (1 / 10000 + sumW [((1 : ℚ), (2 : ℚ))])))) :=
  ⟨by simp, by norm_num [sumW],
    C9_defuzzify_epsilon_formula _ (by simp) (by norm_num [sumW])⟩

/-! ### IMU conditioner: `hardware/imu_driver.py` (real-valued model) -/

/-- A raw six-axis IMU sample: signed integers (AX, AY, AZ, GX, GY, GZ) as
returned by `read_all_axes()`. -/
structure RawSample where
  ax : ℤ
  ay : ℤ
  az : ℤ
  gx : ℤ
  gy : ℤ
  gz : ℤ
deriving DecidableEq

/-- Configuration attributes of `IMU_Driver` read in `__init__`
(`imu_driver.py` lines 174-242); the low-pass coefficients are whatever
`_iir_alpha` produced. -/
structure IMUParams where
  theta_range_rad : ℝ
  accel_raw_fs : ℤ
  alpha_acc : ℝ
  alpha_omega : ℝ
  gyro_lsb_per_dps : ℝ
  accel_1g_raw : ℝ
  use_complementary : Bool
  comp_alpha : ℝ
  accel_mag_tol_g : ℝ

/-- Mutable filter state of `IMU_Driver` (`imu_driver.py` lines 230-238). -/
structure IMUState where
  ax_lp : ℝ
  az_lp : ℝ
  omega_filt : ℝ
  gyro_bias_y : ℝ
  theta_est : ℝ

/-- Embedding of Python `int(x)` on a real: truncation toward zero. -/
noncomputable def pyTruncR (x : ℝ) : ℤ :=
  if x < 0 then Int.ceil x else Int.floor x

/-- Embedding of `math.atan2(y, x)` on reals (`imu_driver.py` line 301);
signed floating-point zeros do not exist in `ℝ`, and `atan2(0, 0) = 0` as in
Python for positive-zero arguments. -/
noncomputable def atan2 (y x : ℝ) : ℝ :=
  if 0 < x then Real.arctan (y / x)
  else if x < 0 then
    if 0 ≤ y then Real.arctan (y / x) + Real.pi else Real.arctan (y / x) - Real.pi
  else
    if 0 < y then Real.pi / 2 else if y < 0 then -(Real.pi / 2) else 0

/-- Embedding of `_iir_alpha` (`imu_driver.py` lines 146-151). -/
noncomputable def iir_alpha (sample_rate_hz cutoff_hz : ℝ) : ℝ :=
  let cutoff := max (1 / 1000000) cutoff_hz
  let dt := 1 / max (1 / 1000000) sample_rate_hz
  let rc := 1 / (2 * Real.pi * cutoff)
  dt / (rc + dt)

/-- Embedding of `_soft_clip_tanh` (`imu_driver.py` lines 154-158). -/
noncomputable def soft_clip_tanh (v : ℤ) (fs : ℤ) : ℤ :=
  if fs ≤ 0 then v
  else pyTruncR ((fs : ℝ) * Real.tanh ((v : ℝ) / (fs : ℝ)))

/-- Embedding of `IMU_Driver.read_normalized` (`imu_driver.py` lines 275-344).
The time step `dt` (derived from the monotonic clock in the source) is taken
as a parameter.  Returns the updated filter state and the pair
`(theta_norm, omega_norm)`.  `32768.0` is `self._OMEGA_FS_RAW` (line 242).
The final division by `theta_range_rad` raises `ZeroDivisionError` in Python
when that range is configured as zero; theorems about this function therefore
carry the hypothesis `theta_range_rad ≠ 0`. -/
noncomputable def read_normalized (p : IMUParams) (s : IMUState) (raw : RawSample)
    (dt : ℝ) : IMUState × ℝ × ℝ :=
  let ax_sc := soft_clip_tanh raw.ax p.accel_raw_fs
  let az_sc := soft_clip_tanh raw.az p.accel_raw_fs
  let ax_lp := s.ax_lp + p.alpha_acc * ((ax_sc : ℝ) - s.ax_lp)
  let az_lp := s.az_lp + p.alpha_acc * ((az_sc : ℝ) - s.az_lp)
  let theta_acc := atan2 ax_lp (-az_lp)
  let gy_corr := (raw.gy : ℝ) - s.gyro_bias_y
  let omega_filt := s.omega_filt + p.alpha_omega * (gy_corr - s.omega_filt)
  let omega_norm := max (-1) (min 1 (omega_filt / 32768))
  let amag := Real.sqrt ((raw.ax : ℝ) ^ 2 + (raw.ay : ℝ) ^ 2 + (raw.az : ℝ) ^ 2)
  let amag_g := amag / max (1 / 1000000) p.accel_1g_raw
  let accel_trust := |amag_g - 1| ≤ p.accel_mag_tol_g
  let omega_dps := omega_filt / max (1 / 1000000000) p.gyro_lsb_per_dps
  let omega_rad_s := omega_dps * (Real.pi / 180)
  let theta_gyro := s.theta_est + omega_rad_s * dt
  let alpha := if accel_trust then p.comp_alpha else 1
  let theta_est :=
    if p.use_complementary then alpha * theta_gyro + (1 - alpha) * theta_acc
    else s.theta_est
  let theta_rads := if p.use_complementary then theta_est else theta_acc
  let theta_norm := max (-1) (min 1 (theta_rads / p.theta_range_rad))
  (⟨ax_lp, az_lp, omega_filt, s.gyro_bias_y, theta_est⟩, theta_norm, omega_norm)

/-- Iteration of `read_normalized` over a sequence of raw samples with their
time steps, as performed by the per-tick control loop (`main.py` line 167). -/
noncomputable def read_normalized_run (p : IMUParams) :
    IMUState → List (RawSample × ℝ) → IMUState × List (ℝ × ℝ)
  | s, [] => (s, [])
  | s, (raw, dt) :: rest =>
    let step := read_normalized p s raw dt
    let tail := read_normalized_run p step.1 rest
    (tail.1, step.2 :: tail.2)

/-- Embedding of `_calibrate_gyro_bias_y` (`imu_driver.py` lines 261-272):
the average of the gyro-Y channel over the calibration samples, whose number
is `max(10, int(n))` in the source. -/
noncomputable def calibrate_gyro_bias_y (samples : List RawSample) : ℝ :=
  ((samples.map (fun r => (r.gy : ℝ))).sum) / (samples.length : ℝ)

/-- Filter state at the end of `IMU_Driver.__init__` with bias calibration
enabled (`imu_driver.py` lines 230-238 and 256-258): all low-pass and
estimator state is zero and `_gyro_bias_y` holds the calibration average. -/
noncomputable def post_init_state (samples : List RawSample) : IMUState :=
  { ax_lp := 0, az_lp := 0, omega_filt := 0
    gyro_bias_y := calibrate_gyro_bias_y samples, theta_est := 0 }

/-- Boolean check that every calibration sample has gyro-Y equal to `b`. -/
def allGyEq (l : List RawSample) (b : ℤ) : Bool :=
  l.all (fun r => r.gy == b)

/-- Boolean check that every timed sample of a run has gyro-Y equal to `b`. -/
def allGyEqIn (l : List (RawSample × ℝ)) (b : ℤ) : Bool :=
  l.all (fun q => q.1.gy == b)

theorem allGyEq_spec {l : List RawSample} {b : ℤ} (h : allGyEq l b = true) :
    ∀ r ∈ l, r.gy = b := by
  intro r hr
  simp only [allGyEq, List.all_eq_true, beq_iff_eq] at h
  exact h r hr

theorem calibrate_const {samples : List RawSample} {b : ℤ}
    (hne : samples ≠ []) (h : ∀ r ∈ samples, r.gy = b) :
    calibrate_gyro_bias_y samples = (b : ℝ) := by
  have hmem : ∀ x ∈ samples.map (fun r => (r.gy : ℝ)), x = (b : ℝ) := by
    intro x hx
    obtain ⟨r, hr, rfl⟩ := List.mem_map.1 hx
    exact_mod_cast h r hr
  have hsum : (samples.map (fun r => (r.gy : ℝ))).sum =
      (samples.map (fun r => (r.gy : ℝ))).length • (b : ℝ) :=
    List.sum_eq_card_nsmul _ _ hmem
  have hlen : (0 : ℝ) < (samples.length : ℝ) := by
    have : 0 < samples.length := List.length_pos.2 hne
    exact_mod_cast this
  rw [calibrate_gyro_bias_y, hsum, List.length_map, nsmul_eq_mul,
    mul_div_assoc, mul_comm]
  field_simp

theorem read_normalized_omega_path {p : IMUParams} {s : IMUState}
    {raw : RawSample} {dt : ℝ} {b : ℤ}
    (h1 : s.omega_filt = 0) (h2 : s.gyro_bias_y = (b : ℝ)) (h3 : raw.gy = b) :
    (read_normalized p s raw dt).1.omega_filt = 0 ∧
    (read_normalized p s raw dt).1.gyro_bias_y = (b : ℝ) ∧
    (read_normalized p s raw dt).2.2 = 0 := by
  refine ⟨?_, ?_, ?_⟩ <;>
    simp [read_normalized, h1, h2, h3]

theorem run_omega_invariant {p : IMUParams} {b : ℤ} :
    ∀ (inputs : List (RawSample × ℝ)) (s : IMUState),
      s.omega_filt = 0 → s.gyro_bias_y = (b : ℝ) → allGyEqIn inputs b = true →
      (read_normalized_run p s inputs).1.omega_filt = 0 ∧
      (read_normalized_run p s inputs).1.gyro_bias_y = (b : ℝ) := by
  intro inputs
  induction inputs with
  | nil => intro s h1 h2 _; exact ⟨h1, h2⟩
  | cons q rest ih =>
    intro s h1 h2 hall
    obtain ⟨raw, dt⟩ := q
    simp only [allGyEqIn, List.all_cons, Bool.and_eq_true, beq_iff_eq] at hall
    have hstep := @read_normalized_omega_path p s raw dt _ h1 h2 hall.1
    have := ih (read_normalized p s raw dt).1 hstep.1 hstep.2.1
      (by simpa [allGyEqIn] using hall.2)
    simpa [read_normalized_run] using this

/-- C5: for every parameter set with a non-degenerate theta range (so the
final Python division is defined), every filter state and every raw six-axis
sample, both components of the pair returned by `read_normalized` lie in
`[-1, 1]`; in this real-valued model the outputs are real numbers, hence
finite (no NaN or infinity), matching the claim's finiteness requirement for
finite inputs.  Quantifying over arbitrary filter states covers every call of
every sample sequence. -/
theorem C5_read_normalized_bounded (p : IMUParams) (s : IMUState)
    (raw : RawSample) (dt : ℝ) (hrange : p.theta_range_rad ≠ 0) :
    -1 ≤ (read_normalized p s raw dt).2.1 ∧ (read_normalized p s raw dt).2.1 ≤ 1 ∧
    -1 ≤ (read_normalized p s raw dt).2.2 ∧ (read_normalized p s raw dt).2.2 ≤ 1 := by
  unfold read_normalized
  dsimp only
  exact ⟨le_max_left _ _, max_le (by norm_num) (min_le_left _ _),
    le_max_left _ _, max_le (by norm_num) (min_le_left _ _)⟩

/-- Witness for C5: the bound theorem applied at the spec's "upright, still"
sample `(0, 0, -16384, 0, 0, 0)` with unit theta range. -/
theorem C5_read_normalized_bounded_witness :
    ((⟨1, 16384, 1 / 10, 1 / 10, 131, 16384, false, 49 / 50, 3 / 20⟩ :
        IMUParams).theta_range_rad ≠ 0) ∧
    (-1 ≤ (read_normalized ⟨1, 16384, 1 / 10, 1 / 10, 131, 16384, false, 49 / 50, 3 / 20⟩
        ⟨0, 0, 0, 0, 0⟩ ⟨0, 0, -16384, 0, 0, 0⟩ 1).2.1 ∧
      (read_normalized ⟨1, 16384, 1 / 10, 1 / 10, 131, 16384, false, 49 / 50, 3 / 20⟩
        ⟨0, 0, 0, 0, 0⟩ ⟨0, 0, -16384, 0, 0, 0⟩ 1).2.1 ≤ 1 ∧
      -1 ≤ (read_normalized ⟨1, 16384, 1 / 10, 1 / 10, 131, 16384, false, 49 / 50, 3 / 20⟩
        ⟨0, 0, 0, 0, 0⟩ ⟨0, 0, -16384, 0, 0, 0⟩ 1).2.2 ∧
      (read_normalized ⟨1, 16384, 1 / 10, 1 / 10, 131, 16384, false, 49 / 50, 3 / 20⟩
        ⟨0, 0, 0, 0, 0⟩ ⟨0, 0, -16384, 0, 0, 0⟩ 1).2.2 ≤ 1) :=
  ⟨by norm_num,
    C5_read_normalized_bounded _ _ _ _ (by norm_num)⟩

/-- C10: after gyro bias calibration on `max(10, N)` samples of constant
gyro-Y input `b` (starting from the zeroed filter state `__init__` sets up),
any number of further `read_normalized` calls on constant gyro-Y input `b`
followed by one more such call give `ω_n = 0`, so `|ω_n| < 1e-6`. -/
theorem C10_gyro_bias_cal (nsamp : ℕ) (b : ℤ) (samples : List RawSample)
    (p : IMUParams) (inputs : List (RawSample × ℝ)) (raw : RawSample) (dt : ℝ)
    (hlen : samples.length = max 10 nsamp)
    (hsam : allGyEq samples b = true)
    (hin : allGyEqIn inputs b = true)
    (hraw : raw.gy = b) :
    (read_normalized p (read_normalized_run p (post_init_state samples) inputs).1
        raw dt).2.2 = 0 ∧
    |(read_normalized p (read_normalized_run p (post_init_state samples) inputs).1
        raw dt).2.2| < 1 / 1000000 := by
  have hne : samples ≠ [] := by
    intro hempty
    rw [hempty] at hlen
    simp at hlen
    omega
  have hbias : calibrate_gyro_bias_y samples = (b : ℝ) :=
    calibrate_const hne (allGyEq_spec hsam)
  have hinit1 : (post_init_state samples).omega_filt = 0 := rfl
  have hinit2 : (post_init_state samples).gyro_bias_y = (b : ℝ) := hbias
  have hrun := run_omega_invariant (p := p) (b := b) inputs _ hinit1 hinit2 hin
  have hstep := @read_normalized_omega_path p _ raw dt b hrun.1 hrun.2 hraw
  refine ⟨hstep.2.2, ?_⟩
  rw [hstep.2.2]
  norm_num

/-- Witness for C10: the calibration theorem applied to ten constant samples
with gyro-Y offset `b = 100` (the spec's "bias calibration rejects constant
offset" scenario), one intervening tick, and a final call. -/
theorem C10_gyro_bias_cal_witness :
    (List.replicate 10 (⟨0, 0, -16384, 0, 100, 0⟩ : RawSample)).length = max 10 10 ∧
    allGyEq (List.replicate 10 (⟨0, 0, -16384, 0, 100, 0⟩ : RawSample)) 100 = true ∧
    allGyEqIn [((⟨0, 0, -16384, 0, 100, 0⟩ : RawSample), (1 : ℝ))] 100 = true ∧
    (⟨0, 0, -16384, 0, 100, 0⟩ : RawSample).gy = 100 ∧
    ((read_normalized ⟨1, 16384, 1 / 10, 1 / 10, 131, 16384, false, 49 / 50, 3 / 20⟩
        (read_normalized_run ⟨1, 16384, 1 / 10, 1 / 10, 131, 16384, false, 49 / 50, 3 / 20⟩
          (post_init_state (List.replicate 10 (⟨0, 0, -16384, 0, 100, 0⟩ : RawSample)))
          [((⟨0, 0, -16384, 0, 100, 0⟩ : RawSample), (1 : ℝ))]).1
        ⟨0, 0, -16384, 0, 100, 0⟩ 1).2.2 = 0 ∧
      |(read_normalized ⟨1, 16384, 1 / 10, 1 / 10, 131, 16384, false, 49 / 50, 3 / 20⟩
        (read_normalized_run ⟨1, 16384, 1 / 10, 1 / 10, 131, 16384, false, 49 / 50, 3 / 20⟩
          (post_init_state (List.replicate 10 (⟨0, 0, -16384, 0, 100, 0⟩ : RawSample)))
          [((⟨0, 0, -16384, 0, 100, 0⟩ : RawSample), (1 : ℝ))]).1
        ⟨0, 0, -16384, 0, 100, 0⟩ 1).2.2| < 1 / 1000000) :=
  ⟨by simp, by simp [allGyEq], by simp [allGyEqIn], rfl,
    C10_gyro_bias_cal 10 100 _ _ _ _ _ (by simp) (by simp [allGyEq])
      (by simp [allGyEqIn]) rfl⟩

end CarriageStab
